import Mathlib

/-!
# Bozo32: a polynomial rolling checksum over a circular byte window

Shallow embedding of `bozo32/bozo32.go`.

* `uint32` fields are natural numbers; every arithmetic step of the source is
  followed by an explicit reduction modulo `2^32` (`mul32`, `add32`, `sub32`).
* A Go slice is a view of a backing array: the field `window` holds the
  `len(window)` visible bytes and the field `spare` the bytes of the backing
  array between `len(window)` and `cap(window)`.
* A run-time panic of the source (index or slice bound out of range) is the
  result `none`.
* The field `oldest` (an `int` that the source only sets to 0 or increments) is
  a natural number; a `byte` is a number below 256.
* `rollinghash.DefaultWindowCap` is a constant of the parent package; it is a
  parameter of the constructors.
-/

namespace Rollinghash

/-- A Go `byte`. -/
abbrev Byte := Fin 256

/-- The modulus of `uint32` arithmetic. -/
def W32 : Nat := 2 ^ 32

/-- The `uint32` product `x * y`. -/
def mul32 (x y : Nat) : Nat := (x * y) % W32

/-- The `uint32` sum `x + y`. -/
def add32 (x y : Nat) : Nat := (x + y) % W32

/-- The `uint32` difference `x - y` (wrapping around below zero). -/
def sub32 (x y : Nat) : Nat := (x + (W32 - y % W32)) % W32

/-- The built-in `copy(dst, src)`: the first `min (len dst) (len src)` bytes of
`dst` are replaced by those of `src`; the result is the new content of `dst`. -/
def goCopy (dst src : List Byte) : List Byte :=
  src.take dst.length ++ dst.drop src.length

/-- The call `copy(dst[off:], src)` seen from `dst`: bytes before `off` stay. -/
def goCopyAt (dst : List Byte) (off : Nat) (src : List Byte) : List Byte :=
  dst.take off ++ goCopy (dst.drop off) src

/-- The size of the checksum. -/
def Size : Nat := 4

/-- The digest `Bozo32` of the source. -/
structure Bozo32 where
  a : Nat
  h : Nat
  aPowerN : Nat
  window : List Byte
  spare : List Byte
  oldest : Nat
  deriving DecidableEq

namespace Bozo32

/-- The capacity `cap(d.window)`. -/
def capacity (d : Bozo32) : Nat := d.window.length + d.spare.length

/-- The method `Reset`: the slice `d.window[:0]` keeps the backing array. -/
def Reset (d : Bozo32) : Bozo32 :=
  { d with h := 0, aPowerN := 1, oldest := 0, window := [], spare := d.window ++ d.spare }

/-- The method `Size`. -/
def Size (_d : Bozo32) : Nat := Rollinghash.Size

/-- The method `BlockSize`. -/
def BlockSize (_d : Bozo32) : Nat := 1

/-- The block of `Write` guarded by `d.oldest != 0`: the window is re-arranged
so that the leftmost element is at index 0. The slice `d.window[:d.oldest]`
needs `oldest ≤ cap`, the slice `d.window[d.oldest:]` needs `oldest ≤ len`. -/
def rearrange (d : Bozo32) : Option Bozo32 :=
  let n := d.window.length
  if d.oldest ≠ 0 then
    let tmp : List Byte := List.replicate d.oldest 0
    if d.oldest ≤ d.capacity then
      let tmp := goCopy tmp ((d.window ++ d.spare).take d.oldest)
      if d.oldest ≤ n then
        let window := goCopy d.window (d.window.drop d.oldest)
        let window := goCopyAt window (n - d.oldest) tmp
        some { d with window := window, oldest := 0 }
      else none
    else none
  else some d

/-- The block of `Write` that expands the window to `n + l` bytes, within the
backing array when it is large enough and in a new array otherwise. -/
def expand (d : Bozo32) (n l : Nat) : Bozo32 :=
  if n + l ≤ d.capacity then
    { d with window := (d.window ++ d.spare).take (n + l),
             spare := (d.window ++ d.spare).drop (n + l) }
  else
    let w := d.window
    { d with window := goCopy (List.replicate (n + l) 0) w, spare := [] }

/-- One iteration of the loop of `Write` on the byte `c`. -/
def absorb (d : Bozo32) (c : Byte) : Bozo32 :=
  let h := mul32 d.h d.a
  let h := add32 h c.val
  { d with h := h, aPowerN := mul32 d.aPowerN d.a }

/-- The method `Write`: the new state, the returned count and the returned
error (`none` is `nil`). -/
def Write (d : Bozo32) (data : List Byte) : Option (Bozo32 × Nat × Option String) :=
  let l := data.length
  if l = 0 then some (d, 0, none)
  else
    let n := d.window.length
    match d.rearrange with
    | none => none
    | some d =>
      let d := d.expand n l
      let d := { d with window := goCopyAt d.window n data }
      let d := d.window.foldl absorb d
      some (d, d.window.length, none)

/-- The method `Sum32`. -/
def Sum32 (d : Bozo32) : Nat := d.h

/-- The conversion `byte(v)` of a `uint32`. -/
def toByte (v : Nat) : Byte := ⟨v % 256, Nat.mod_lt _ (by decide)⟩

/-- The method `Sum`. -/
def Sum (d : Bozo32) (b : List Byte) : List Byte :=
  let v := d.Sum32
  b ++ [toByte (v >>> 24), toByte (v >>> 16), toByte (v >>> 8), toByte v]

/-- The method `Roll`; the state after the call. -/
def Roll (d : Bozo32) (c : Byte) : Option Bozo32 :=
  if d.window.length = 0 then some d
  else
    let enter := c.val
    match d.window[d.oldest]? with
    | none => none
    | some b =>
      let leave := b.val
      let window := d.window.set d.oldest c
      let l := window.length
      let oldest := d.oldest + 1
      let oldest := if oldest ≥ l then 0 else oldest
      some { d with window := window, oldest := oldest,
                    h := sub32 (add32 (mul32 d.h d.a) enter) (mul32 leave d.aPowerN) }

/-- Successive calls `Roll(r[0])`, ..., `Roll(r[k-1])`. -/
def rollAll (d : Bozo32) : List Byte → Option Bozo32
  | [] => some d
  | c :: r => (d.Roll c).bind fun d1 => d1.rollAll r

/-- The logical window, oldest byte first: `window[oldest:] ++ window[:oldest]`. -/
def logical (d : Bozo32) : List Byte :=
  d.window.drop d.oldest ++ d.window.take d.oldest

end Bozo32

/-- A call of one of the three mutating methods of a digest. -/
inductive Call where
  | write (data : List Byte)
  | roll (c : Byte)
  | reset
  deriving DecidableEq

/-- The state after one call. -/
def Bozo32.call (d : Bozo32) : Call → Option Bozo32
  | Call.write data => (d.Write data).map fun p => p.1
  | Call.roll c => d.Roll c
  | Call.reset => some d.Reset

/-- The state after a sequence of calls, first call first. -/
def Bozo32.run (d : Bozo32) : List Call → Option Bozo32
  | [] => some d
  | c :: cs => (d.call c).bind fun d1 => d1.run cs

/-- The constructor `NewFromInt`; `defaultWindowCap` is
`rollinghash.DefaultWindowCap`. -/
def NewFromInt (a : Nat) (defaultWindowCap : Nat) : Bozo32 :=
  { a := a, h := 0, aPowerN := 1, window := [],
    spare := List.replicate defaultWindowCap 0, oldest := 0 }

/-- The constructor `New`. -/
def New (defaultWindowCap : Nat) : Bozo32 := NewFromInt 65521 defaultWindowCap

/-- The closed form of the digest in the words of the specification: the sum
over `i` in `[0, n)` of `w[i] * a^(n-1-i)`, modulo `2^32`. -/
def closedForm (a : Nat) (w : List Byte) : Nat :=
  (Finset.sum (Finset.range w.length)
    fun i => (w.getD i 0).val * a ^ (w.length - 1 - i)) % 2 ^ 32

/-- The polynomial of a window over the residues modulo `2^32` (Horner form). -/
def horner (a : ZMod W32) (w : List Byte) : ZMod W32 :=
  w.foldl (fun h c => h * a + (c.val : ZMod W32)) 0

/-- The digest agrees with its window for the base `a`: `oldest` is an index of
the window, `h` is the polynomial of the logical window and `aPowerN` is
`a^len(window)`, both modulo `2^32`. -/
def Bozo32.Coherent (a : Nat) (d : Bozo32) : Prop :=
  d.a = a ∧ d.oldest < d.window.length ∧ d.h < W32 ∧
    (d.h : ZMod W32) = horner (a : ZMod W32) d.logical ∧
    (d.aPowerN : ZMod W32) = (a : ZMod W32) ^ d.window.length

/-- The shape of the states the package builds: the base is `a`, and `oldest`
is an index of the window, or the window is empty and `oldest` is 0. -/
def Bozo32.Shaped (a : Nat) (d : Bozo32) : Prop :=
  d.a = a ∧ (d.oldest < d.window.length ∨ (d.window = [] ∧ d.oldest = 0))

/-- The method `Sum32` as a call on the digest, whose receiver is a pointer:
the state after the call and the returned value. The body assigns no field. -/
def Bozo32.Sum32Call (d : Bozo32) : Bozo32 × Nat := (d, d.h)

/-- The method `Sum` as a call on the digest: the state after the call (that
of its call of `Sum32`) and the returned slice. -/
def Bozo32.SumCall (d : Bozo32) (b : List Byte) : Bozo32 × List Byte :=
  let r := d.Sum32Call
  let v := r.2
  (r.1, b ++ [Bozo32.toByte (v >>> 24), Bozo32.toByte (v >>> 16),
              Bozo32.toByte (v >>> 8), Bozo32.toByte v])

/-! ## Rolling Adler-32

The package `adler32` is known through its test file only; its digest is
modelled from sections 3, 4.1, 4.2 and 4.4 of the specification. -/

/-- Modelled from the spec: the modulus `M = 65521` of Adler-32, a constant of
the missing package `adler32`. -/
def adlerMod : Nat := 65521

/-- Modelled from the spec: the Adler-32 rolling state of the package `adler32`
(its source is missing): two running sums `A` and `B` modulo 65521 and the
window, stored as a circular buffer with the index of its oldest byte. -/
structure Adler32 where
  A : Nat
  B : Nat
  window : List Byte
  oldest : Nat
  deriving DecidableEq

/-- Modelled from the spec: the accumulation step of Adler-32 on one byte,
`A = (A + c) mod 65521; B = (B + A) mod 65521` (the loop of the missing
`Write`, and the standard checksum). -/
def adlerStep (s : Nat × Nat) (c : Byte) : Nat × Nat :=
  ((s.1 + c.val) % adlerMod, (s.2 + (s.1 + c.val) % adlerMod) % adlerMod)

namespace Adler32

/-- Modelled from the spec: the missing constructor `New` of the package
`adler32`: `A` initialised to 1, `B` to 0, the window empty. -/
def New : Adler32 := { A := 1, B := 0, window := [], oldest := 0 }

/-- Modelled from the spec: the missing method `Write` of the package
`adler32`. An empty input is a no-op returning 0; otherwise the window is
rotated so that it starts at offset 0, the input is appended, and the
accumulation is folded over the whole resulting window from the running `A`
and `B` (1 and 0 on the first `Write`); the new window length is returned. -/
def Write (d : Adler32) (data : List Byte) : Adler32 × Nat :=
  if data.length = 0 then (d, 0)
  else
    let window := (d.window.drop d.oldest ++ d.window.take d.oldest) ++ data
    let s := window.foldl adlerStep (d.A, d.B)
    ({ A := s.1, B := s.2, window := window, oldest := 0 }, window.length)

/-- Modelled from the spec: the missing method `Roll` of the package
`adler32`. On an empty window it is a no-op; otherwise, with `leave` the byte
at `oldest` and `n` the window length, `A' = (A + enter - leave) mod 65521` and
`B' = (B + A' - n*leave - 1) mod 65521`, both reduced to `[0, 65521)`; the
byte at `oldest` is overwritten and `oldest` advances modulo `n`. -/
def Roll (d : Adler32) (c : Byte) : Adler32 :=
  if d.window.length = 0 then d
  else
    let enter : Int := c.val
    let leave : Int := (d.window.getD d.oldest 0).val
    let n : Int := d.window.length
    let a1 : Int := ((d.A : Int) + enter - leave) % (adlerMod : Int)
    let b1 : Int := ((d.B : Int) + a1 - n * leave - 1) % (adlerMod : Int)
    { A := a1.toNat, B := b1.toNat, window := d.window.set d.oldest c,
      oldest := (d.oldest + 1) % d.window.length }

/-- Modelled from the spec: the missing method `Sum32` of the package
`adler32`: the digest `B * 65536 + A`. -/
def Sum32 (d : Adler32) : Nat := d.B * 65536 + d.A

end Adler32

/-- Modelled from the spec: the standard, non-rolling Adler-32 checksum (the
oracle `vanilla` of the tests): the accumulation from `A = 1`, `B = 0` over
the input, and the digest `B * 65536 + A`. -/
def vanillaSum32 (p : List Byte) : Nat :=
  let s := p.foldl adlerStep (1, 0)
  s.2 * 65536 + s.1

/-- The function `Sum32ByWriteAndRoll` of `adler32_test.go`: the input is
prepended with a zero byte, all but the last byte are written and the last
byte is rolled in. -/
def Sum32ByWriteAndRoll (b : List Byte) : Nat :=
  let q : List Byte := [0] ++ b
  let roll := Adler32.New
  let roll := (roll.Write (q.take (q.length - 1))).1
  let roll := roll.Roll (q.getD (q.length - 1) 0)
  roll.Sum32

/-! ## Arithmetic modulo `2^32` -/

theorem W32_pos : 0 < W32 := by decide

theorem cast_mul32 (x y : Nat) : ((mul32 x y : Nat) : ZMod W32) = (x : ZMod W32) * y := by
  rw [mul32, ZMod.natCast_mod, Nat.cast_mul]

theorem cast_add32 (x y : Nat) : ((add32 x y : Nat) : ZMod W32) = (x : ZMod W32) + y := by
  rw [add32, ZMod.natCast_mod, Nat.cast_add]

theorem cast_sub32 (x y : Nat) : ((sub32 x y : Nat) : ZMod W32) = (x : ZMod W32) - y := by
  have hle : y % W32 ≤ W32 := (Nat.mod_lt y W32_pos).le
  rw [sub32, ZMod.natCast_mod, Nat.cast_add, Nat.cast_sub hle, ZMod.natCast_self,
    ZMod.natCast_mod]
  ring

theorem mul32_lt (x y : Nat) : mul32 x y < W32 := Nat.mod_lt _ W32_pos

theorem add32_lt (x y : Nat) : add32 x y < W32 := Nat.mod_lt _ W32_pos

theorem sub32_lt (x y : Nat) : sub32 x y < W32 := Nat.mod_lt _ W32_pos

/-- Two `uint32` values with the same residue are equal. -/
theorem eq_of_cast_eq {x y : Nat} (hx : x < W32) (hy : y < W32)
    (h : (x : ZMod W32) = (y : ZMod W32)) : x = y := by
  have := (ZMod.natCast_eq_natCast_iff' x y W32).mp h
  rwa [Nat.mod_eq_of_lt hx, Nat.mod_eq_of_lt hy] at this

theorem foldl_horner (a : ZMod W32) (w : List Byte) (h0 : ZMod W32) :
    w.foldl (fun h c => h * a + (c.val : ZMod W32)) h0 = h0 * a ^ w.length + horner a w := by
  induction w generalizing h0 with
  | nil => simp [horner]
  | cons c w ih =>
    have e1 := ih (h0 * a + (c.val : ZMod W32))
    have e2 := ih (0 * a + (c.val : ZMod W32))
    simp only [horner, List.foldl_cons, List.length_cons] at e1 e2 ⊢
    rw [e1, e2]
    ring

theorem horner_nil (a : ZMod W32) : horner a [] = 0 := rfl

theorem horner_cons (a : ZMod W32) (c : Byte) (w : List Byte) :
    horner a (c :: w) = (c.val : ZMod W32) * a ^ w.length + horner a w := by
  have e := foldl_horner a w (0 * a + (c.val : ZMod W32))
  simp only [horner, List.foldl_cons] at e ⊢
  rw [e]
  ring

theorem horner_snoc (a : ZMod W32) (w : List Byte) (c : Byte) :
    horner a (w ++ [c]) = horner a w * a + (c.val : ZMod W32) := by
  simp [horner, List.foldl_append]

/-- The rolling identity: dropping the oldest byte `b` of a window and
appending `c` multiplies the polynomial by `a`, adds `c` and removes
`b * a^n`. -/
theorem horner_roll (a : ZMod W32) (b c : Byte) (w : List Byte) :
    horner a (w ++ [c]) =
      horner a (b :: w) * a + (c.val : ZMod W32) - (b.val : ZMod W32) * a ^ (w.length + 1) := by
  rw [horner_snoc, horner_cons]
  ring

/-! ## The loop of `Write` -/

namespace Bozo32

theorem foldl_absorb_a (w : List Byte) (d : Bozo32) : (w.foldl absorb d).a = d.a := by
  induction w generalizing d with
  | nil => rfl
  | cons c w ih => rw [List.foldl_cons, ih]; rfl

theorem foldl_absorb_window (w : List Byte) (d : Bozo32) :
    (w.foldl absorb d).window = d.window := by
  induction w generalizing d with
  | nil => rfl
  | cons c w ih => rw [List.foldl_cons, ih]; rfl

theorem foldl_absorb_spare (w : List Byte) (d : Bozo32) :
    (w.foldl absorb d).spare = d.spare := by
  induction w generalizing d with
  | nil => rfl
  | cons c w ih => rw [List.foldl_cons, ih]; rfl

theorem foldl_absorb_oldest (w : List Byte) (d : Bozo32) :
    (w.foldl absorb d).oldest = d.oldest := by
  induction w generalizing d with
  | nil => rfl
  | cons c w ih => rw [List.foldl_cons, ih]; rfl

theorem foldl_absorb_h (w : List Byte) (d : Bozo32) :
    (((w.foldl absorb d).h : Nat) : ZMod W32) =
      (d.h : ZMod W32) * (d.a : ZMod W32) ^ w.length + horner (d.a : ZMod W32) w := by
  induction w generalizing d with
  | nil => simp [horner]
  | cons c w ih =>
    rw [List.foldl_cons, ih, horner_cons]
    simp only [absorb, cast_add32, cast_mul32, List.length_cons]
    ring

theorem foldl_absorb_aPowerN (w : List Byte) (d : Bozo32) :
    (((w.foldl absorb d).aPowerN : Nat) : ZMod W32) =
      (d.aPowerN : ZMod W32) * (d.a : ZMod W32) ^ w.length := by
  induction w generalizing d with
  | nil => simp
  | cons c w ih =>
    rw [List.foldl_cons, ih]
    simp only [absorb, cast_mul32, List.length_cons]
    ring

theorem foldl_absorb_h_lt (w : List Byte) (d : Bozo32) (hd : d.h < W32) :
    (w.foldl absorb d).h < W32 := by
  induction w generalizing d with
  | nil => exact hd
  | cons c w ih => rw [List.foldl_cons]; exact ih _ (add32_lt _ _)

theorem foldl_absorb_aPowerN_lt (w : List Byte) (d : Bozo32) (hd : d.aPowerN < W32) :
    (w.foldl absorb d).aPowerN < W32 := by
  induction w generalizing d with
  | nil => exact hd
  | cons c w ih => rw [List.foldl_cons]; exact ih _ (mul32_lt _ _)

/-! ## The slices of `Write` -/

theorem goCopy_same_length (dst src : List Byte) (h : src.length = dst.length) :
    goCopy dst src = src := by
  unfold goCopy
  rw [← h, List.take_length, h, List.drop_length, List.append_nil]

theorem goCopyAt_append (x y src : List Byte) (h : src.length = y.length) :
    goCopyAt (x ++ y) x.length src = x ++ src := by
  unfold goCopyAt
  rw [List.take_left, List.drop_left, goCopy_same_length _ _ h]

/-- The three `copy` calls of the re-arrangement, on a window split at
`oldest`: the part from `oldest` on comes first, the part before it last. -/
theorem rotate_copies (pre post sp : List Byte) :
    goCopyAt (goCopy (pre ++ post) ((pre ++ post).drop pre.length))
        ((pre ++ post).length - pre.length)
        (goCopy (List.replicate pre.length 0) (((pre ++ post) ++ sp).take pre.length))
      = post ++ pre := by
  have e1 : ((pre ++ post) ++ sp).take pre.length = pre := by
    rw [List.append_assoc, List.take_left]
  have e2 : goCopy (List.replicate pre.length 0) pre = pre :=
    goCopy_same_length _ _ (by simp)
  have e3 : (pre ++ post).drop pre.length = post := List.drop_left _ _
  have e4 : goCopy (pre ++ post) post = post ++ (pre ++ post).drop post.length := by
    unfold goCopy
    rw [List.take_of_length_le (by simp)]
  have e5 : (pre ++ post).length - pre.length = post.length := by simp
  rw [e1, e2, e3, e4, e5]
  exact goCopyAt_append _ _ _ (by simp)

/-- The re-arrangement succeeds when `oldest ≤ len(window)` and leaves the
logical window at index 0. -/
theorem rearrange_eq (d : Bozo32) (h : d.oldest ≤ d.window.length) :
    d.rearrange = some { d with window := d.logical, oldest := 0 } := by
  obtain ⟨a, hh, p, w, sp, o⟩ := d
  simp only at h
  unfold rearrange
  by_cases h0 : o = 0
  · subst h0
    simp [logical]
  · have hcap : o ≤ capacity ⟨a, hh, p, w, sp, o⟩ := by unfold capacity; simp only; omega
    simp only [h0, ne_eq, not_false_eq_true, if_true, hcap, h, logical]
    have hlen : (w.take o).length = o := by simp [h]
    have hrot := rotate_copies (w.take o) (w.drop o) sp
    rw [List.take_append_drop, hlen] at hrot
    rw [hrot]

theorem logical_length (d : Bozo32) : d.logical.length = d.window.length := by
  unfold logical
  rw [List.length_append, List.length_drop, List.length_take]
  omega

/-- Expanding a window of `n` bytes by `l` bytes and copying `data` behind it. -/
theorem expand_copy (d : Bozo32) (data : List Byte) :
    goCopyAt (d.expand d.window.length data.length).window d.window.length data
      = d.window ++ data := by
  unfold expand
  by_cases hc : d.window.length + data.length ≤ d.capacity
  · have hs : data.length ≤ d.spare.length := by unfold capacity at hc; omega
    simp only [hc, if_true]
    rw [List.take_append]
    exact goCopyAt_append _ _ _ (by simp [hs])
  · simp only [hc, if_false]
    have e : goCopy (List.replicate (d.window.length + data.length) 0) d.window
        = d.window ++ List.replicate data.length 0 := by
      unfold goCopy
      rw [List.take_of_length_le (by simp), List.drop_replicate]
      simp
    rw [e]
    exact goCopyAt_append _ _ _ (by simp)

theorem expand_with_window (d : Bozo32) (n l : Nat) (x : List Byte) :
    { d.expand n l with window := x } = { d with window := x, spare := (d.expand n l).spare } := by
  unfold expand; split <;> rfl

/-- What `Write` does on a non-empty input when `oldest ≤ len(window)`: the
window becomes the logical window followed by the input, `oldest` becomes 0,
and the loop runs over the whole new window from the old `h` and `aPowerN`. -/
theorem Write_eq (d : Bozo32) (data : List Byte) (hne : data ≠ [])
    (h : d.oldest ≤ d.window.length) :
    ∃ sp, d.Write data =
      some ((d.logical ++ data).foldl absorb
              { d with window := d.logical ++ data, spare := sp, oldest := 0 },
            d.window.length + data.length, none) := by
  have hl : data.length ≠ 0 := by
    intro h0; exact hne (List.length_eq_zero.mp h0)
  have hcopy := expand_copy { d with window := d.logical, oldest := 0 } data
  simp only [logical_length] at hcopy
  refine ⟨({ d with window := d.logical, oldest := 0 }.expand d.window.length data.length).spare, ?_⟩
  unfold Write
  simp only [hl, if_false, rearrange_eq d h, expand_with_window, hcopy,
    foldl_absorb_window, List.length_append, logical_length]

theorem expand_a (d : Bozo32) (n l : Nat) : (d.expand n l).a = d.a := by
  unfold expand; split <;> rfl

theorem expand_h (d : Bozo32) (n l : Nat) : (d.expand n l).h = d.h := by
  unfold expand; split <;> rfl

theorem expand_aPowerN (d : Bozo32) (n l : Nat) : (d.expand n l).aPowerN = d.aPowerN := by
  unfold expand; split <;> rfl

theorem expand_oldest (d : Bozo32) (n l : Nat) : (d.expand n l).oldest = d.oldest := by
  unfold expand; split <;> rfl

/-! ## One step of the circular buffer -/

/-- A window with a byte at index `oldest` splits around that byte. -/
theorem window_split (w : List Byte) (o : Nat) (b : Byte) (hb : w[o]? = some b) :
    ∃ pre post, w = pre ++ b :: post ∧ pre.length = o := by
  obtain ⟨ho, hget⟩ := List.getElem?_eq_some.mp hb
  refine ⟨w.take o, w.drop (o + 1), ?_, by simp [ho.le]⟩
  rw [← hget, ← List.drop_eq_getElem_cons ho, List.take_append_drop]

/-- The state after `Roll(c)` when the window holds the byte `b` at `oldest`. -/
theorem Roll_eq (d : Bozo32) (c b : Byte) (hb : d.window[d.oldest]? = some b) :
    d.Roll c = some { d with
      window := d.window.set d.oldest c,
      oldest := if d.oldest + 1 ≥ d.window.length then 0 else d.oldest + 1,
      h := sub32 (add32 (mul32 d.h d.a) c.val) (mul32 b.val d.aPowerN) } := by
  obtain ⟨ho, -⟩ := List.getElem?_eq_some.mp hb
  have hn : d.window.length ≠ 0 := by omega
  unfold Roll
  simp only [hn, if_false, hb, List.length_set]

/-- The logical window after one step: the oldest byte is gone and `c` is the
newest. -/
theorem logical_step (pre post : List Byte) (b c : Byte) :
    let w := (pre ++ b :: post).set pre.length c
    let o := if pre.length + 1 ≥ (pre ++ b :: post).length then 0 else pre.length + 1
    w.drop o ++ w.take o = (post ++ pre) ++ [c] := by
  intro w o
  have hw : w = pre ++ c :: post := by simp [w]
  cases post with
  | nil =>
    have h0 : o = 0 := by simp [o]
    rw [hw, h0]; simp
  | cons x post =>
    have h1 : o = (pre ++ [c]).length := by simp [o]
    have hw2 : w = (pre ++ [c]) ++ x :: post := by rw [hw]; simp
    rw [h1, hw2, List.drop_left, List.take_left]
    simp

/-- One `Roll` keeps a coherent digest coherent and shifts its logical window. -/
theorem Roll_coherent (a : Nat) (d : Bozo32) (c : Byte) (hd : d.Coherent a) :
    ∃ d1, d.Roll c = some d1 ∧ d1.Coherent a ∧
      d1.logical = d.logical.tail ++ [c] ∧ d1.window.length = d.window.length := by
  obtain ⟨ha, ho, -, hh, hp⟩ := hd
  have hb : d.window[d.oldest]? = some (d.window[d.oldest]) := List.getElem?_eq_getElem ho
  obtain ⟨pre, post, hw, hpre⟩ := window_split _ _ _ hb
  generalize d.window[d.oldest] = b at hb hw
  have hlog : d.logical = b :: (post ++ pre) := by
    unfold logical
    rw [hw, ← hpre, List.drop_left, List.take_left]
    rfl
  have hstep := logical_step pre post b c
  simp only at hstep
  rw [hpre, ← hw] at hstep
  have hn : d.window.length = (post ++ pre).length + 1 := by
    rw [hw]; simp; omega
  have hlog1 : Bozo32.logical { d with
      window := d.window.set d.oldest c,
      oldest := if d.oldest + 1 ≥ d.window.length then 0 else d.oldest + 1,
      h := sub32 (add32 (mul32 d.h d.a) c.val) (mul32 b.val d.aPowerN) }
      = post ++ pre ++ [c] := hstep
  refine ⟨_, Roll_eq d c b hb, ⟨ha, ?_, sub32_lt _ _, ?_, ?_⟩, ?_, ?_⟩
  · simp only [List.length_set]
    split <;> omega
  · rw [hlog1]
    simp only [cast_sub32, cast_add32, cast_mul32, hh, hp, ha, hlog]
    rw [horner_roll (a : ZMod W32) b c (post ++ pre), hn]
  · simpa only [List.length_set] using hp
  · rw [hlog1, hlog, List.tail_cons]
  · simp only [List.length_set]

/-- A sequence of `Roll` calls keeps a coherent digest coherent; its logical
window is the last `len(window)` bytes of the old one followed by the input. -/
theorem rollAll_coherent (a : Nat) (r : List Byte) (d : Bozo32) (hd : d.Coherent a) :
    ∃ d1, d.rollAll r = some d1 ∧ d1.Coherent a ∧
      d1.logical = (d.logical ++ r).drop r.length ∧
      d1.window.length = d.window.length := by
  induction r generalizing d with
  | nil => exact ⟨d, rfl, hd, by simp, rfl⟩
  | cons c r ih =>
    obtain ⟨d1, h1, hc1, hl1, hn1⟩ := Roll_coherent a d c hd
    obtain ⟨d2, h2, hc2, hl2, hn2⟩ := ih d1 hc1
    refine ⟨d2, ?_, hc2, ?_, hn2.trans hn1⟩
    · simp only [rollAll, h1, Option.some_bind, h2]
    · have hne : d.logical ≠ [] := by
        intro h0
        have := logical_length d
        rw [h0] at this
        have := hd.2.1
        simp at *
        omega
      obtain ⟨x, t, hx⟩ := List.exists_cons_of_ne_nil hne
      rw [hl2, hl1, hx]
      simp

/-- Rolling on an empty window changes nothing. -/
theorem rollAll_empty (r : List Byte) (d : Bozo32) (h : d.window = []) :
    d.rollAll r = some d := by
  induction r with
  | nil => rfl
  | cons c r ih => simp [rollAll, Roll, h, ih]

end Bozo32

/-! ## A fresh digest -/

theorem NewFromInt_logical (a cap : Nat) : (NewFromInt a cap).logical = [] := rfl

/-- The first `Write` of a non-empty input on a digest in its initial state
(whatever its backing array). -/
theorem Write_blank (d : Bozo32) (w : List Byte) (hne : w ≠ [])
    (hh : d.h = 0) (hp : d.aPowerN = 1) (hw : d.window = []) (ho : d.oldest = 0) :
    ∃ d1, d.Write w = some (d1, w.length, none) ∧ d1.Coherent d.a ∧
      d1.logical = w ∧ d1.window = w ∧ d1.oldest = 0 := by
  obtain ⟨sp, hsp⟩ := Bozo32.Write_eq d w hne (by rw [ho]; exact Nat.zero_le _)
  have hlog : d.logical = [] := by simp [Bozo32.logical, hw]
  rw [hlog] at hsp
  have hlen : 0 < w.length := List.length_pos.mpr hne
  refine ⟨_, by simpa [hw] using hsp, ⟨?_, ?_, ?_, ?_, ?_⟩, ?_, ?_, ?_⟩
  · rw [Bozo32.foldl_absorb_a]
  · rw [Bozo32.foldl_absorb_oldest, Bozo32.foldl_absorb_window]; exact hlen
  · exact Bozo32.foldl_absorb_h_lt _ _ (by simp [hh, W32_pos])
  · rw [Bozo32.foldl_absorb_h]
    simp [Bozo32.logical, Bozo32.foldl_absorb_oldest, Bozo32.foldl_absorb_window, hh]
  · rw [Bozo32.foldl_absorb_aPowerN, Bozo32.foldl_absorb_window]
    simp [hp]
  · simp [Bozo32.logical, Bozo32.foldl_absorb_oldest, Bozo32.foldl_absorb_window]
  · simp [Bozo32.foldl_absorb_window]
  · simp [Bozo32.foldl_absorb_oldest]

/-- The first `Write` of a non-empty input on a fresh digest. -/
theorem Write_fresh (a cap : Nat) (w : List Byte) (hne : w ≠ []) :
    ∃ d, (NewFromInt a cap).Write w = some (d, w.length, none) ∧ d.Coherent a ∧
      d.logical = w ∧ d.window = w ∧ d.oldest = 0 :=
  Write_blank (NewFromInt a cap) w hne rfl rfl rfl rfl

/-! ## The states the package builds -/

theorem NewFromInt_shaped (a cap : Nat) : (NewFromInt a cap).Shaped a :=
  ⟨rfl, Or.inr ⟨rfl, rfl⟩⟩

theorem Shaped_le {a : Nat} {d : Bozo32} (hd : d.Shaped a) : d.oldest ≤ d.window.length := by
  rcases hd.2 with h | ⟨-, h⟩
  · exact h.le
  · rw [h]; exact Nat.zero_le _

/-- No call panics on a shaped state, and the state after it is shaped. -/
theorem call_shaped (a : Nat) (d : Bozo32) (c : Call) (hd : d.Shaped a) :
    ∃ d1, d.call c = some d1 ∧ d1.Shaped a := by
  cases c with
  | write data =>
    by_cases hne : data = []
    · subst hne
      exact ⟨d, rfl, hd⟩
    · obtain ⟨sp, hsp⟩ := Bozo32.Write_eq d data hne (Shaped_le hd)
      refine ⟨_, by rw [Bozo32.call, hsp]; rfl, ?_, Or.inl ?_⟩
      · rw [Bozo32.foldl_absorb_a]; exact hd.1
      · rw [Bozo32.foldl_absorb_oldest, Bozo32.foldl_absorb_window]
        have : 0 < data.length := List.length_pos.mpr hne
        simp only [List.length_append]
        omega
  | roll c =>
    rcases hd.2 with h | ⟨h, -⟩
    · have hb : d.window[d.oldest]? = some (d.window[d.oldest]) := List.getElem?_eq_getElem h
      refine ⟨_, Bozo32.Roll_eq d c _ hb, hd.1, Or.inl ?_⟩
      simp only [List.length_set]
      split <;> omega
    · exact ⟨d, by simp [Bozo32.call, Bozo32.Roll, h], hd⟩
  | reset => exact ⟨d.Reset, rfl, hd.1, Or.inr ⟨rfl, rfl⟩⟩

/-- No sequence of calls panics on a shaped state; the final state is shaped. -/
theorem run_shaped (a : Nat) (cs : List Call) (d : Bozo32) (hd : d.Shaped a) :
    ∃ d1, d.run cs = some d1 ∧ d1.Shaped a := by
  induction cs generalizing d with
  | nil => exact ⟨d, rfl, hd⟩
  | cons c cs ih =>
    obtain ⟨d1, h1, hs1⟩ := call_shaped a d c hd
    obtain ⟨d2, h2, hs2⟩ := ih d1 hs1
    exact ⟨d2, by simp only [Bozo32.run, h1, Option.some_bind, h2], hs2⟩

/-- Every state reached from `NewFromInt(a)` is shaped. -/
theorem reachable_shaped (a cap : Nat) (cs : List Call) (d : Bozo32)
    (h : (NewFromInt a cap).run cs = some d) : d.Shaped a := by
  obtain ⟨d1, h1, hs1⟩ := run_shaped a cs _ (NewFromInt_shaped a cap)
  rw [h] at h1
  cases h1
  exact hs1

/-- `Write` of the empty input on a fresh digest. -/
theorem Write_fresh_nil (a cap : Nat) :
    (NewFromInt a cap).Write [] = some (NewFromInt a cap, 0, none) := rfl

/-! ## The closed form -/

/-- The sum of the closed form, extended by one byte. -/
theorem closedSum_snoc (a : Nat) (w : List Byte) (c : Byte) :
    (Finset.sum (Finset.range (w ++ [c]).length)
        fun i => ((w ++ [c]).getD i 0).val * a ^ ((w ++ [c]).length - 1 - i))
      = (Finset.sum (Finset.range w.length)
          fun i => (w.getD i 0).val * a ^ (w.length - 1 - i)) * a + c.val := by
  rw [List.length_append, List.length_singleton, Finset.sum_range_succ, Finset.sum_mul]
  congr 1
  · refine Finset.sum_congr rfl fun i hi => ?_
    have hi2 : i < w.length := Finset.mem_range.mp hi
    have he : w.length + 1 - 1 - i = (w.length - 1 - i) + 1 := by omega
    rw [List.getD_append _ _ _ _ hi2, he, pow_succ, mul_assoc]
  · simp [List.getD_eq_getElem?_getD]

theorem closedForm_cast (a : Nat) (w : List Byte) :
    ((closedForm a w : Nat) : ZMod W32) = horner (a : ZMod W32) w := by
  have key : ∀ w : List Byte,
      (((Finset.sum (Finset.range w.length)
          fun i => (w.getD i 0).val * a ^ (w.length - 1 - i) : Nat)) : ZMod W32)
        = horner (a : ZMod W32) w := by
    intro w
    induction w using List.reverseRecOn with
    | nil => simp [horner]
    | append_singleton w c ih =>
      rw [closedSum_snoc, horner_snoc, ← ih]
      push_cast
      ring
  rw [← key w]
  exact ZMod.natCast_mod _ W32

theorem closedForm_lt (a : Nat) (w : List Byte) : closedForm a w < W32 :=
  Nat.mod_lt _ W32_pos

/-- A fresh digest after one `Write` holds the closed form. -/
theorem Write_fresh_closed (a cap : Nat) (w : List Byte) :
    ∃ d n, (NewFromInt a cap).Write w = some (d, n, none) ∧ d.h = closedForm a w := by
  by_cases hw : w = []
  · subst hw
    exact ⟨NewFromInt a cap, 0, rfl, by simp [NewFromInt, closedForm]⟩
  · obtain ⟨d, h1, hc, hl, -, -⟩ := Write_fresh a cap w hw
    refine ⟨d, _, h1, ?_⟩
    apply eq_of_cast_eq hc.2.2.1 (closedForm_lt a w)
    rw [hc.2.2.2.1, hl, closedForm_cast]

/-! ## The claims -/

/-- C1. Rolling equals full recompute: a digest built by `NewFromInt(a)`, then
`Write(w)`, then `Roll` of each byte of `r`, has the same `Sum32` as a fresh
`NewFromInt(a)` digest after one `Write` of the last `len(w)` bytes of
`w ++ r`; every call returns. -/
theorem roll_equals_recompute (a cap cap2 : Nat) (w r : List Byte) :
    ∃ d1 n1 d2 d3 n3,
      (NewFromInt a cap).Write w = some (d1, n1, none) ∧
      d1.rollAll r = some d2 ∧
      (NewFromInt a cap2).Write ((w ++ r).drop r.length) = some (d3, n3, none) ∧
      d2.Sum32 = d3.Sum32 := by
  by_cases hw : w = []
  · subst hw
    refine ⟨NewFromInt a cap, 0, NewFromInt a cap, NewFromInt a cap2, 0, rfl,
      Bozo32.rollAll_empty r _ rfl, ?_, rfl⟩
    rw [List.nil_append, List.drop_length]
    rfl
  · obtain ⟨d1, h1, hc1, hl1, -, -⟩ := Write_fresh a cap w hw
    obtain ⟨d2, h2, hc2, hl2, hn2⟩ := Bozo32.rollAll_coherent a r d1 hc1
    have hne : (w ++ r).drop r.length ≠ [] := by
      intro h0
      have hlen := congrArg List.length h0
      have : 0 < w.length := List.length_pos.mpr hw
      rw [List.length_drop, List.length_append, List.length_nil] at hlen
      omega
    obtain ⟨d3, h3, hc3, hl3, -, -⟩ := Write_fresh a cap2 _ hne
    refine ⟨d1, _, d2, d3, _, h1, h2, h3, ?_⟩
    apply eq_of_cast_eq hc2.2.2.1 hc3.2.2.1
    rw [hc2.2.2.2.1, hc3.2.2.2.1, hl2, hl3, hl1]

/-- C2. Closed form of the digest: a fresh `NewFromInt(a)` digest after one
`Write(w)` has `Sum32` equal to the sum over `i` in `[0, n)` of
`w[i] * a^(n-1-i)` modulo `2^32`, and the call returns. -/
theorem write_closed_form (a cap : Nat) (w : List Byte) :
    ∃ d n, (NewFromInt a cap).Write w = some (d, n, none) ∧ d.Sum32 = closedForm a w :=
  Write_fresh_closed a cap w

/-- The state after `Write([1])` twice on a fresh digest of base 2, whatever
the default capacity: the loop of the second call runs over both bytes from
the old `h = 1` and `aPowerN = 2`. -/
theorem write_twice_state (cap : Nat) :
    ∃ d, (NewFromInt 2 cap).run [Call.write [1], Call.write [1]] = some d ∧
      d.window = [1, 1] ∧ d.oldest = 0 ∧ d.h = 7 ∧ d.aPowerN = 8 ∧ d.a = 2 := by
  obtain ⟨d1, h1, hc1, hl1, hw1, ho1⟩ := Write_fresh 2 cap [1] (by simp)
  obtain ⟨sp1, e1⟩ := Bozo32.Write_eq (NewFromInt 2 cap) [1] (by simp) (Nat.zero_le _)
  rw [h1] at e1
  have hd1 : d1 = List.foldl Bozo32.absorb
      { NewFromInt 2 cap with window := (NewFromInt 2 cap).logical ++ [1], spare := sp1,
                              oldest := 0 } ((NewFromInt 2 cap).logical ++ [1]) := by
    injection e1 with e1
    injection e1
  have hh1 : d1.h = 1 := by rw [hd1]; rfl
  have hp1 : d1.aPowerN = 2 := by rw [hd1]; rfl
  obtain ⟨sp2, e2⟩ := Bozo32.Write_eq d1 [1] (by simp) (by rw [ho1]; exact Nat.zero_le _)
  rw [hl1, hc1.1, hh1, hp1] at e2
  have hrun : (NewFromInt 2 cap).run [Call.write [1], Call.write [1]] =
      some (List.foldl Bozo32.absorb
        { a := 2, h := 1, aPowerN := 2, window := [1] ++ [1], spare := sp2, oldest := 0 }
        ([1] ++ [1])) := by
    simp [Bozo32.run, Bozo32.call, h1, e2]
  exact ⟨_, hrun, rfl, rfl, rfl, rfl, rfl⟩

/-- C3. The code at the input `a = 2`, `x = [1]`, `y = [1]`: after `Write(x)`
then `Write(y)` the digest is 7, while a fresh digest after `Write(x ++ y)` has
the digest 3. -/
theorem write_write_differs (cap : Nat) :
    ∃ d d2 n, (NewFromInt 2 cap).run [Call.write [1], Call.write [1]] = some d ∧
      (NewFromInt 2 cap).Write ([1] ++ [1]) = some (d2, n, none) ∧
      d.Sum32 = 7 ∧ d2.Sum32 = 3 := by
  obtain ⟨d, hd, -, -, hh, -, -⟩ := write_twice_state cap
  obtain ⟨d2, n, h2, hs2⟩ := Write_fresh_closed 2 cap ([1] ++ [1])
  refine ⟨d, d2, n, hd, h2, hh, ?_⟩
  rw [Bozo32.Sum32, hs2]
  decide

/-- C4. The code at the input `a = 2`, `Write([1])`, `Write([1])`: the window
has 2 bytes and `aPowerN` is 8, while `a^2` is 4. -/
theorem aPowerN_after_two_writes (cap : Nat) :
    ∃ d, (NewFromInt 2 cap).run [Call.write [1], Call.write [1]] = some d ∧
      d.aPowerN = 8 ∧ d.a ^ d.window.length % 2 ^ 32 = 4 := by
  obtain ⟨d, hd, hw, -, -, hp, ha⟩ := write_twice_state cap
  refine ⟨d, hd, hp, ?_⟩
  rw [ha, hw]
  decide

/-- C5. The update formula of `Roll`: when `leave` is the byte stored at
`window[oldest]` before the call, `Roll(c)` returns, the new hash is
`h*a + c - leave*aPowerN` modulo `2^32`, and `a` and `aPowerN` are unchanged. -/
theorem roll_update_formula (d : Bozo32) (c leave : Byte)
    (hl : d.window[d.oldest]? = some leave) :
    ∃ d1, d.Roll c = some d1 ∧
      (d1.h : Int) = ((d.h : Int) * d.a + c.val - leave.val * d.aPowerN) % 2 ^ 32 ∧
      d1.a = d.a ∧ d1.aPowerN = d.aPowerN := by
  refine ⟨_, Bozo32.Roll_eq d c leave hl, ?_, rfl, rfl⟩
  simp only
  have hlt := sub32_lt (add32 (mul32 d.h d.a) c.val) (mul32 leave.val d.aPowerN)
  have hmod : ((sub32 (add32 (mul32 d.h d.a) c.val) (mul32 leave.val d.aPowerN) : Nat) : Int)
      % ((W32 : Nat) : Int)
      = ((d.h : Int) * d.a + c.val - leave.val * d.aPowerN) % ((W32 : Nat) : Int) := by
    apply (ZMod.intCast_eq_intCast_iff' _ _ W32).mp
    push_cast
    rw [cast_sub32, cast_add32, cast_mul32, cast_mul32]
  have hW : ((W32 : Nat) : Int) = 2 ^ 32 := by norm_num [W32]
  rw [hW] at hmod
  rw [← hmod]
  refine (Int.emod_eq_of_lt (Int.natCast_nonneg _) ?_).symm
  rw [← hW]
  exact_mod_cast hlt

/-- C5, at a window of two bytes with `oldest = 1`. -/
theorem roll_update_formula_witness :
    ({ a := 3, h := 10, aPowerN := 9, window := [5, 7], spare := [], oldest := 1 }
        : Bozo32).window[1]? = some 7 ∧
    ∃ d1, ({ a := 3, h := 10, aPowerN := 9, window := [5, 7], spare := [], oldest := 1 }
        : Bozo32).Roll 4 = some d1 ∧
      (d1.h : Int) = ((10 : Int) * 3 + 4 - 7 * 9) % 2 ^ 32 ∧ d1.a = 3 ∧ d1.aPowerN = 9 :=
  ⟨rfl, roll_update_formula
    { a := 3, h := 10, aPowerN := 9, window := [5, 7], spare := [], oldest := 1 } 4 7 rfl⟩

/-- C6, as stated, fails at `a = 2`, `x = [1]`, `r = []`, `y = [1]`: after
`Write(x)`, no `Roll`, and `Write(y)` the window is `[1, 1]`, not `y`, and the
digest is 7, while a fresh digest after `Write(y)` has the window `[1]` and the
digest 1. -/
theorem write_keeps_old_window :
    ((((NewFromInt 2 64).Write [1]).bind fun p1 => p1.1.rollAll []).bind
        fun d2 => d2.Write [1]).map (fun p => (p.1.window, p.1.Sum32))
      = some ([1, 1], 7) ∧
    ((NewFromInt 2 64).Write [1]).map (fun p => (p.1.window, p.1.Sum32)) = some ([1], 1) := by
  decide

/-- C6, amended. After `NewFromInt(a)`, `Write(x)`, `Roll` of each byte of
`r` and `Write(y)` with `y` non-empty, every call has returned, `oldest` is 0
and the window is the previous logical window (the last `len(x)` bytes of
`x ++ r`) followed by `y`; when `x` is empty the window is exactly `y` and
`Sum32` is that of a fresh `NewFromInt(a)` digest after `Write(y)`. -/
theorem write_after_roll_appends (a cap : Nat) (x r y : List Byte) (hy : y ≠ []) :
    ∃ d1 n1 d2 d3 n3,
      (NewFromInt a cap).Write x = some (d1, n1, none) ∧
      d1.rollAll r = some d2 ∧
      d2.Write y = some (d3, n3, none) ∧
      d3.oldest = 0 ∧
      d3.window = (x ++ r).drop r.length ++ y ∧
      (x = [] → d3.window = y ∧
        ∃ d4 n4, (NewFromInt a cap).Write y = some (d4, n4, none) ∧ d3.Sum32 = d4.Sum32) := by
  by_cases hx : x = []
  · subst hx
    obtain ⟨d3, h3, -, -, hw3, ho3⟩ := Write_fresh a cap y hy
    refine ⟨NewFromInt a cap, 0, NewFromInt a cap, d3, _, rfl,
      Bozo32.rollAll_empty r _ rfl, h3, ho3, ?_, fun _ => ⟨hw3, d3, _, h3, rfl⟩⟩
    rw [hw3, List.nil_append, List.drop_length, List.nil_append]
  · obtain ⟨d1, h1, hc1, hl1, -, -⟩ := Write_fresh a cap x hx
    obtain ⟨d2, h2, hc2, hl2, -⟩ := Bozo32.rollAll_coherent a r d1 hc1
    obtain ⟨sp, h3⟩ := Bozo32.Write_eq d2 y hy hc2.2.1.le
    refine ⟨d1, _, d2, _, _, h1, h2, h3, ?_, ?_, fun h => absurd h hx⟩
    · rw [Bozo32.foldl_absorb_oldest]
    · rw [Bozo32.foldl_absorb_window, hl2, hl1]

/-- C6, amended, at `a = 2`, `x = [1, 2]`, `r = [3]`, `y = [4]`. -/
theorem write_after_roll_appends_witness :
    ([4] : List Byte) ≠ [] ∧
    ∃ d1 n1 d2 d3 n3,
      (NewFromInt 2 64).Write [1, 2] = some (d1, n1, none) ∧
      d1.rollAll [3] = some d2 ∧
      d2.Write [4] = some (d3, n3, none) ∧
      d3.oldest = 0 ∧
      d3.window = (([1, 2] : List Byte) ++ [3]).drop ([3] : List Byte).length ++ [4] ∧
      (([1, 2] : List Byte) = [] → d3.window = [4] ∧
        ∃ d4 n4, (NewFromInt 2 64).Write [4] = some (d4, n4, none) ∧ d3.Sum32 = d4.Sum32) :=
  ⟨by decide, write_after_roll_appends 2 64 [1, 2] [3] [4] (by decide)⟩

/-- C7. `Reset` restores the initial state: for every state `d` reached from
`NewFromInt(a)` by calls of `Write`, `Roll` and `Reset`, `Reset` then
`Write(x)` returns the same count and leaves the same `Sum32` as `Write(x)` on
a fresh `NewFromInt(a)` digest. -/
theorem reset_then_write (a cap : Nat) (cs : List Call) (d : Bozo32) (x : List Byte)
    (hd : (NewFromInt a cap).run cs = some d) :
    ∃ d1 d2 n, d.Reset.Write x = some (d1, n, none) ∧
      (NewFromInt a cap).Write x = some (d2, n, none) ∧ d1.Sum32 = d2.Sum32 := by
  have ha : d.a = a := (reachable_shaped a cap cs d hd).1
  by_cases hx : x = []
  · subst hx
    exact ⟨d.Reset, NewFromInt a cap, 0, rfl, rfl, rfl⟩
  · obtain ⟨d1, h1, hc1, hl1, -, -⟩ := Write_blank d.Reset x hx rfl rfl rfl rfl
    obtain ⟨d2, h2, hc2, hl2, -, -⟩ := Write_fresh a cap x hx
    have ha1 : d.Reset.a = a := ha
    rw [ha1] at hc1
    refine ⟨d1, d2, _, h1, h2, ?_⟩
    apply eq_of_cast_eq hc1.2.2.1 hc2.2.2.1
    rw [hc1.2.2.2.1, hc2.2.2.2.1, hl1, hl2]

/-- C7, at the state reached by `Write([1, 2])`, `Roll(3)`, and `x = [9]`. -/
theorem reset_then_write_witness :
    ∃ d, (NewFromInt 7 64).run [Call.write [1, 2], Call.roll 3] = some d ∧
      ∃ d1 d2 n, d.Reset.Write [9] = some (d1, n, none) ∧
        (NewFromInt 7 64).Write [9] = some (d2, n, none) ∧ d1.Sum32 = d2.Sum32 :=
  ⟨{ a := 7, h := 17, aPowerN := 49, window := [3, 2],
     spare := List.replicate 62 0, oldest := 1 },
   by decide,
   reset_then_write 7 64 [Call.write [1, 2], Call.roll 3] _ [9] (by decide)⟩

/-- C8. `Write` never fails and returns the new window length: on a state with
`oldest ≤ len(window)` and a non-empty input, `Write` returns a nil error and
a count equal to the window length after the call, which is the window length
before the call plus the length of the input. -/
theorem write_returns_length (d : Bozo32) (data : List Byte) (hne : data ≠ [])
    (hd : d.oldest ≤ d.window.length) :
    ∃ d1 n, d.Write data = some (d1, n, none) ∧ n = d1.window.length ∧
      d1.window.length = d.window.length + data.length := by
  obtain ⟨sp, hsp⟩ := Bozo32.Write_eq d data hne hd
  refine ⟨_, _, hsp, ?_, ?_⟩
  · rw [Bozo32.foldl_absorb_window, List.length_append, Bozo32.logical_length]
  · rw [Bozo32.foldl_absorb_window, List.length_append, Bozo32.logical_length]

/-- C8, at a window of three bytes with `oldest = 2`. -/
theorem write_returns_length_witness :
    ([8, 9] : List Byte) ≠ [] ∧
    ({ a := 3, h := 10, aPowerN := 27, window := [5, 6, 7], spare := [0], oldest := 2 }
        : Bozo32).oldest ≤ ([5, 6, 7] : List Byte).length ∧
    ∃ d1 n, ({ a := 3, h := 10, aPowerN := 27, window := [5, 6, 7], spare := [0], oldest := 2 }
        : Bozo32).Write [8, 9] = some (d1, n, none) ∧ n = d1.window.length ∧
      d1.window.length = ([5, 6, 7] : List Byte).length + ([8, 9] : List Byte).length :=
  ⟨by decide, by decide, write_returns_length
    { a := 3, h := 10, aPowerN := 27, window := [5, 6, 7], spare := [0], oldest := 2 }
    [8, 9] (by decide) (by decide)⟩

/-- C9. `Write` of the empty input is a no-op: it returns `(0, nil)` and leaves
every field of the state unchanged. -/
theorem write_empty_noop (d : Bozo32) : d.Write [] = some (d, 0, none) := rfl

/-- C10. `Roll` on an empty window is a silent no-op: it returns and leaves the
whole state unchanged. -/
theorem roll_empty_noop (d : Bozo32) (c : Byte) (h : d.window = []) :
    d.Roll c = some d := by
  unfold Bozo32.Roll
  rw [h]
  rfl

/-- C10, at a fresh digest. -/
theorem roll_empty_noop_witness :
    (NewFromInt 65521 64).window = [] ∧ (NewFromInt 65521 64).Roll 42 = some (NewFromInt 65521 64) :=
  ⟨rfl, roll_empty_noop (NewFromInt 65521 64) 42 rfl⟩

/-! ## Rolling, reading and writing on any state -/

/-- One `Roll` on a state whose `oldest` is an index of the window: the call
returns, the window keeps its length and `oldest` stays an index. -/
theorem Roll_length (d : Bozo32) (c : Byte) (h : d.oldest < d.window.length) :
    ∃ d1, d.Roll c = some d1 ∧ d1.window.length = d.window.length ∧
      d1.oldest < d1.window.length := by
  have hb : d.window[d.oldest]? = some (d.window[d.oldest]) := List.getElem?_eq_getElem h
  refine ⟨_, Bozo32.Roll_eq d c _ hb, ?_, ?_⟩
  · simp only [List.length_set]
  · simp only [List.length_set]
    split <;> omega

/-- A sequence of `Roll` calls on such a state returns and keeps the length. -/
theorem rollAll_length (r : List Byte) (d : Bozo32) (h : d.oldest < d.window.length) :
    ∃ d1, d.rollAll r = some d1 ∧ d1.window.length = d.window.length := by
  induction r generalizing d with
  | nil => exact ⟨d, rfl, rfl⟩
  | cons c r ih =>
    obtain ⟨d1, h1, hn1, ho1⟩ := Roll_length d c h
    obtain ⟨d2, h2, hn2⟩ := ih d1 ho1
    exact ⟨d2, by simp only [Bozo32.rollAll, h1, Option.some_bind, h2], hn2.trans hn1⟩

/-- C11. Window-length invariance under `Roll`: on a state whose window is
empty or whose `oldest` is an index of the window, rolling any finite sequence
of bytes returns, and the window length after it is the length before it. -/
theorem roll_keeps_window_length (d : Bozo32) (r : List Byte)
    (hd : d.window = [] ∨ d.oldest < d.window.length) :
    ∃ d1, d.rollAll r = some d1 ∧ d1.window.length = d.window.length := by
  rcases hd with h | h
  · exact ⟨d, Bozo32.rollAll_empty r d h, rfl⟩
  · exact rollAll_length r d h

/-- C11, at a window of three bytes with `oldest = 1` and three rolls. -/
theorem roll_keeps_window_length_witness :
    (([5, 6, 7] : List Byte) = [] ∨ 1 < ([5, 6, 7] : List Byte).length) ∧
    ∃ d1, ({ a := 3, h := 10, aPowerN := 27, window := [5, 6, 7], spare := [], oldest := 1 }
        : Bozo32).rollAll [1, 2, 3] = some d1 ∧
      d1.window.length = ([5, 6, 7] : List Byte).length :=
  ⟨by decide, roll_keeps_window_length
    { a := 3, h := 10, aPowerN := 27, window := [5, 6, 7], spare := [], oldest := 1 }
    [1, 2, 3] (by decide)⟩

/-- The four bytes of `Sum`, most significant first, spell a `uint32`. -/
theorem toByte_big_endian (v : Nat) (hv : v < 2 ^ 32) :
    (Bozo32.toByte (v >>> 24)).val * 2 ^ 24 + (Bozo32.toByte (v >>> 16)).val * 2 ^ 16
      + (Bozo32.toByte (v >>> 8)).val * 2 ^ 8 + (Bozo32.toByte v).val = v := by
  simp only [Bozo32.toByte, Nat.shiftRight_eq_div_pow]
  norm_num at hv ⊢
  omega

/-- C12. `Sum` appends the big-endian encoding of `Sum32`: for a digest whose
hash is a `uint32`, `Sum(b)` has length `len(b) + 4`, starts with `b`, and its
last four bytes `v3, v2, v1, v0` satisfy
`v3*2^24 + v2*2^16 + v1*2^8 + v0 = Sum32()`. -/
theorem sum_big_endian (d : Bozo32) (b : List Byte) (hh : d.h < 2 ^ 32) :
    (d.Sum b).length = b.length + 4 ∧ (d.Sum b).take b.length = b ∧
      ∃ v3 v2 v1 v0 : Byte, (d.Sum b).drop b.length = [v3, v2, v1, v0] ∧
        v3.val * 2 ^ 24 + v2.val * 2 ^ 16 + v1.val * 2 ^ 8 + v0.val = d.Sum32 := by
  refine ⟨by simp [Bozo32.Sum], by simp [Bozo32.Sum],
    Bozo32.toByte (d.h >>> 24), Bozo32.toByte (d.h >>> 16), Bozo32.toByte (d.h >>> 8),
    Bozo32.toByte d.h, ?_, ?_⟩
  · simp only [Bozo32.Sum, Bozo32.Sum32]
    exact List.drop_left _ _
  · exact toByte_big_endian d.h hh

/-- C12, at the hash `0x01020304` and the buffer `[9]`. -/
theorem sum_big_endian_witness :
    (16909060 : Nat) < 2 ^ 32 ∧
    (({ a := 3, h := 16909060, aPowerN := 1, window := [], spare := [], oldest := 0 }
        : Bozo32).Sum [9]).length = ([9] : List Byte).length + 4 ∧
    (({ a := 3, h := 16909060, aPowerN := 1, window := [], spare := [], oldest := 0 }
        : Bozo32).Sum [9]).take ([9] : List Byte).length = [9] ∧
    ∃ v3 v2 v1 v0 : Byte,
      (({ a := 3, h := 16909060, aPowerN := 1, window := [], spare := [], oldest := 0 }
        : Bozo32).Sum [9]).drop ([9] : List Byte).length = [v3, v2, v1, v0] ∧
      v3.val * 2 ^ 24 + v2.val * 2 ^ 16 + v1.val * 2 ^ 8 + v0.val = 16909060 :=
  ⟨by decide, sum_big_endian
    { a := 3, h := 16909060, aPowerN := 1, window := [], spare := [], oldest := 0 }
    [9] (by decide)⟩

/-- C13. `Sum32` and `Sum` are pure accessors: neither call changes the state
of the digest, they return what the functions `Sum32` and `Sum` give on that
state, and a second call (with the same buffer) returns the same output. -/
theorem accessors_pure (d : Bozo32) (b : List Byte) :
    d.Sum32Call.1 = d ∧ (d.SumCall b).1 = d ∧
      d.Sum32Call.2 = d.Sum32 ∧ (d.SumCall b).2 = d.Sum b ∧
      d.Sum32Call.1.Sum32Call.2 = d.Sum32Call.2 ∧
      ((d.SumCall b).1.SumCall b).2 = (d.SumCall b).2 ∧
      (d.SumCall b).1.Sum32Call.2 = d.Sum32Call.2 ∧
      (d.Sum32Call.1.SumCall b).2 = (d.SumCall b).2 :=
  ⟨rfl, rfl, rfl, rfl, rfl, rfl, rfl, rfl⟩

/-! ## The circular buffer -/

/-- The logical window after the assignments of `Roll` to `window` and
`oldest`: the first byte is dropped and `c` is appended. -/
theorem set_logical (w : List Byte) (o : Nat) (c : Byte) (h : o < w.length) :
    (w.set o c).drop (if o + 1 ≥ w.length then 0 else o + 1)
        ++ (w.set o c).take (if o + 1 ≥ w.length then 0 else o + 1)
      = (w.drop o ++ w.take o).tail ++ [c] := by
  have hb : w[o]? = some (w[o]) := List.getElem?_eq_getElem h
  obtain ⟨pre, post, hw, hpre⟩ := Bozo32.window_split _ _ _ hb
  generalize w[o] = b at hb hw
  have hstep := Bozo32.logical_step pre post b c
  simp only at hstep
  rw [hpre, ← hw] at hstep
  rw [hstep]
  have hlog : w.drop o ++ w.take o = b :: (post ++ pre) := by
    rw [hw, ← hpre, List.drop_left, List.take_left]
    rfl
  rw [hlog, List.tail_cons]

/-- C15. The circular-buffer step of `Roll`: on a state whose `oldest` is an
index of the (non-empty) window of length `n`, `Roll(c)` returns, overwrites
exactly the slot `window[oldest]` with `c`, sets `oldest` to
`(oldest + 1) mod n`, and the logical window after the call is the logical
window before it with its first byte dropped and `c` appended. -/
theorem roll_circular_step (d : Bozo32) (c : Byte) (h : d.oldest < d.window.length) :
    ∃ d1, d.Roll c = some d1 ∧
      d1.window.length = d.window.length ∧
      d1.window[d.oldest]? = some c ∧
      (∀ i, i ≠ d.oldest → d1.window[i]? = d.window[i]?) ∧
      d1.oldest = (d.oldest + 1) % d.window.length ∧
      d1.logical = d.logical.tail ++ [c] := by
  have hb : d.window[d.oldest]? = some (d.window[d.oldest]) := List.getElem?_eq_getElem h
  refine ⟨_, Bozo32.Roll_eq d c _ hb, ?_, ?_, ?_, ?_, ?_⟩
  · simp only [List.length_set]
  · simp only [List.getElem?_set_self h]
  · intro i hi
    simp only
    exact List.getElem?_set_ne (Ne.symm hi)
  · simp only
    by_cases hlast : d.oldest + 1 ≥ d.window.length
    · have he : d.oldest + 1 = d.window.length := by omega
      rw [if_pos hlast, he, Nat.mod_self]
    · rw [if_neg hlast, Nat.mod_eq_of_lt (by omega)]
  · exact set_logical d.window d.oldest c h

/-- C15, at a window of three bytes with `oldest = 2` (the wrap-around). -/
theorem roll_circular_step_witness :
    2 < ([5, 6, 7] : List Byte).length ∧
    ∃ d1, ({ a := 3, h := 10, aPowerN := 27, window := [5, 6, 7], spare := [], oldest := 2 }
        : Bozo32).Roll 9 = some d1 ∧
      d1.window.length = ([5, 6, 7] : List Byte).length ∧
      d1.window[2]? = some 9 ∧
      (∀ i, i ≠ 2 → d1.window[i]? = ([5, 6, 7] : List Byte)[i]?) ∧
      d1.oldest = (2 + 1) % ([5, 6, 7] : List Byte).length ∧
      d1.logical = ({ a := 3, h := 10, aPowerN := 27, window := [5, 6, 7], spare := [],
                      oldest := 2 } : Bozo32).logical.tail ++ [9] :=
  ⟨by decide, roll_circular_step
    { a := 3, h := 10, aPowerN := 27, window := [5, 6, 7], spare := [], oldest := 2 }
    9 (by decide)⟩

/-- C16. The rotation of `Write` before growth: on a state where `oldest` is an
index of the window, or the window is empty and `oldest` is 0, `Write` of a
non-empty input returns, sets `oldest` to 0 and leaves the physical window
`(window[oldest:] ++ window[:oldest]) ++ data`. -/
theorem write_rotates_then_appends (d : Bozo32) (data : List Byte) (hne : data ≠ [])
    (hd : d.oldest < d.window.length ∨ (d.window = [] ∧ d.oldest = 0)) :
    ∃ d1 n, d.Write data = some (d1, n, none) ∧ d1.oldest = 0 ∧
      d1.window = (d.window.drop d.oldest ++ d.window.take d.oldest) ++ data := by
  have hle : d.oldest ≤ d.window.length := by
    rcases hd with h | ⟨-, h⟩
    · exact h.le
    · rw [h]; exact Nat.zero_le _
  obtain ⟨sp, hsp⟩ := Bozo32.Write_eq d data hne hle
  refine ⟨_, _, hsp, ?_, ?_⟩
  · rw [Bozo32.foldl_absorb_oldest]
  · rw [Bozo32.foldl_absorb_window]
    rfl

/-- C16, at a window of three bytes with `oldest = 2` and no spare capacity. -/
theorem write_rotates_then_appends_witness :
    ([8, 9] : List Byte) ≠ [] ∧
    (2 < ([5, 6, 7] : List Byte).length ∨ (([5, 6, 7] : List Byte) = [] ∧ 2 = 0)) ∧
    ∃ d1 n, ({ a := 3, h := 10, aPowerN := 27, window := [5, 6, 7], spare := [], oldest := 2 }
        : Bozo32).Write [8, 9] = some (d1, n, none) ∧ d1.oldest = 0 ∧
      d1.window = (([5, 6, 7] : List Byte).drop 2 ++ ([5, 6, 7] : List Byte).take 2) ++ [8, 9] :=
  ⟨by decide, by decide, write_rotates_then_appends
    { a := 3, h := 10, aPowerN := 27, window := [5, 6, 7], spare := [], oldest := 2 }
    [8, 9] (by decide) (by decide)⟩

/-- On a shaped state neither `Roll` nor `Write` panics. -/
theorem shaped_in_bounds (a : Nat) (d : Bozo32) (hd : d.Shaped a) :
    (∀ c, ∃ d1, d.Roll c = some d1) ∧ (∀ data, ∃ r, d.Write data = some r) := by
  constructor
  · intro c
    obtain ⟨d1, h1, -⟩ := call_shaped a d (Call.roll c) hd
    exact ⟨d1, h1⟩
  · intro data
    by_cases hne : data = []
    · subst hne
      exact ⟨_, rfl⟩
    · obtain ⟨sp, hsp⟩ := Bozo32.Write_eq d data hne (Shaped_le hd)
      exact ⟨_, hsp⟩

/-- C17. Index safety: every sequence of `Write`, `Roll` and `Reset` calls on
`NewFromInt(a)` runs without a panic to a state in which the window is empty
and `oldest` is 0, or `oldest` is an index of the window; on that state `Roll`
and `Write` are again within bounds, whatever their argument. -/
theorem index_safety (a cap : Nat) (cs : List Call) :
    ∃ d, (NewFromInt a cap).run cs = some d ∧
      ((d.window = [] ∧ d.oldest = 0) ∨ d.oldest < d.window.length) ∧
      (∀ c, ∃ d1, d.Roll c = some d1) ∧ (∀ data, ∃ r, d.Write data = some r) := by
  obtain ⟨d, hrun, hs⟩ := run_shaped a cs _ (NewFromInt_shaped a cap)
  exact ⟨d, hrun, hs.2.symm, shaped_in_bounds a d hs⟩

/-! ## The exact effect of `Write` -/

/-- The sum of the closed form, before reduction, is the Horner polynomial. -/
theorem closedSum_cast (a : Nat) (w : List Byte) :
    (((Finset.sum (Finset.range w.length)
        fun i => (w.getD i 0).val * a ^ (w.length - 1 - i) : Nat)) : ZMod W32)
      = horner (a : ZMod W32) w := by
  induction w using List.reverseRecOn with
  | nil => simp [horner]
  | append_singleton w c ih =>
    rw [closedSum_snoc, horner_snoc, ← ih]
    push_cast
    ring

/-- After the loop of `Write` over a non-empty window, `h` and `aPowerN` are
reduced modulo `2^32`, whatever they were before. -/
theorem foldl_absorb_lt (w : List Byte) (d : Bozo32) (hw : w ≠ []) :
    (w.foldl Bozo32.absorb d).h < W32 ∧ (w.foldl Bozo32.absorb d).aPowerN < W32 := by
  obtain ⟨c, t, rfl⟩ := List.exists_cons_of_ne_nil hw
  rw [List.foldl_cons]
  exact ⟨Bozo32.foldl_absorb_h_lt _ _ (add32_lt _ _),
    Bozo32.foldl_absorb_aPowerN_lt _ _ (mul32_lt _ _)⟩

/-- C18. The exact effect of `Write` on the running state: on a state with
`oldest ≤ len(window)`, hash `h`, power `p = aPowerN`, base `a` and logical
window `W` of length `n`, `Write` of a non-empty input of length `l` returns
and leaves the hash `h * a^(n+l) + sum over i in [0, n+l) of
V[i] * a^(n+l-1-i)`, with `V = W ++ data`, and `aPowerN = p * a^(n+l)`, both
modulo `2^32`. -/
theorem write_exact_effect (d : Bozo32) (data : List Byte) (hne : data ≠ [])
    (hd : d.oldest ≤ d.window.length) :
    ∃ d1 n, d.Write data = some (d1, n, none) ∧
      d1.h = (d.h * d.a ^ (d.window.length + data.length)
          + Finset.sum (Finset.range (d.window.length + data.length))
              fun i => ((d.logical ++ data).getD i 0).val
                * d.a ^ (d.window.length + data.length - 1 - i)) % 2 ^ 32 ∧
      d1.aPowerN = (d.aPowerN * d.a ^ (d.window.length + data.length)) % 2 ^ 32 := by
  obtain ⟨sp, hsp⟩ := Bozo32.Write_eq d data hne hd
  have hV : (d.logical ++ data).length = d.window.length + data.length := by
    rw [List.length_append, Bozo32.logical_length]
  have hVne : d.logical ++ data ≠ [] := by
    intro h0
    exact hne (List.append_eq_nil.mp h0).2
  obtain ⟨hlt1, hlt2⟩ := foldl_absorb_lt (d.logical ++ data)
    { d with window := d.logical ++ data, spare := sp, oldest := 0 } hVne
  refine ⟨_, _, hsp, ?_, ?_⟩
  · apply eq_of_cast_eq hlt1 (Nat.mod_lt _ W32_pos)
    rw [Bozo32.foldl_absorb_h]
    have hc := closedSum_cast d.a (d.logical ++ data)
    rw [hV] at hc
    rw [ZMod.natCast_mod, Nat.cast_add, hc, hV]
    push_cast
    rfl
  · apply eq_of_cast_eq hlt2 (Nat.mod_lt _ W32_pos)
    rw [Bozo32.foldl_absorb_aPowerN, hV, ZMod.natCast_mod]
    push_cast
    rfl

/-- C18, at a window of two bytes with `oldest = 1`, `h = 10`, `aPowerN = 9`
and base 3. -/
theorem write_exact_effect_witness :
    ([4] : List Byte) ≠ [] ∧ 1 ≤ ([5, 7] : List Byte).length ∧
    ∃ d1 n, ({ a := 3, h := 10, aPowerN := 9, window := [5, 7], spare := [], oldest := 1 }
        : Bozo32).Write [4] = some (d1, n, none) ∧
      d1.h = (10 * 3 ^ (([5, 7] : List Byte).length + ([4] : List Byte).length)
          + Finset.sum (Finset.range (([5, 7] : List Byte).length + ([4] : List Byte).length))
              fun i => ((({ a := 3, h := 10, aPowerN := 9, window := [5, 7], spare := [],
                            oldest := 1 } : Bozo32).logical ++ [4]).getD i 0).val
                * 3 ^ (([5, 7] : List Byte).length + ([4] : List Byte).length - 1 - i)) % 2 ^ 32 ∧
      d1.aPowerN = (9 * 3 ^ (([5, 7] : List Byte).length + ([4] : List Byte).length)) % 2 ^ 32 :=
  ⟨by decide, by decide, write_exact_effect
    { a := 3, h := 10, aPowerN := 9, window := [5, 7], spare := [], oldest := 1 }
    [4] (by decide) (by decide)⟩

/-! ## The base 0 -/

/-- When `oldest` is 0 the logical window is the physical one. -/
theorem logical_of_oldest_zero (d : Bozo32) (h : d.oldest = 0) : d.logical = d.window := by
  simp [Bozo32.logical, h]

/-- With the base 0, `Write` of an input ending in the byte `c` leaves
`h = c`, `aPowerN = 0`, and a window ending in `c` that starts at index 0. -/
theorem zero_base_write (d : Bozo32) (init : List Byte) (c : Byte) (ha : d.a = 0)
    (hd : d.oldest ≤ d.window.length) :
    ∃ d1 n, d.Write (init ++ [c]) = some (d1, n, none) ∧ d1.a = 0 ∧ d1.aPowerN = 0 ∧
      d1.oldest < d1.window.length ∧ d1.h = c.val ∧ d1.logical.getLast? = some c := by
  obtain ⟨sp, hsp⟩ := Bozo32.Write_eq d (init ++ [c]) (by simp) hd
  have hc : c.val < 256 := c.isLt
  refine ⟨_, _, hsp, ?_, ?_, ?_, ?_, ?_⟩
  · rw [Bozo32.foldl_absorb_a]; exact ha
  · rw [← List.append_assoc, List.foldl_append, List.foldl_cons, List.foldl_nil]
    simp only [Bozo32.absorb, Bozo32.foldl_absorb_a, ha, mul32, Nat.mul_zero, Nat.zero_mod]
  · rw [Bozo32.foldl_absorb_oldest, Bozo32.foldl_absorb_window]
    simp
  · rw [← List.append_assoc, List.foldl_append, List.foldl_cons, List.foldl_nil]
    simp only [Bozo32.absorb, Bozo32.foldl_absorb_a, ha, mul32, add32, W32, Nat.mul_zero,
      Nat.zero_mod, Nat.zero_add]
    omega
  · rw [logical_of_oldest_zero _ (Bozo32.foldl_absorb_oldest _ _), Bozo32.foldl_absorb_window]
    simp only [← List.append_assoc, List.getLast?_concat]

/-- With the base 0 and `aPowerN = 0`, `Roll(c)` leaves `h = c`. -/
theorem zero_base_roll (d : Bozo32) (c : Byte) (ha : d.a = 0) (hp : d.aPowerN = 0)
    (ho : d.oldest < d.window.length) :
    ∃ d1, d.Roll c = some d1 ∧ d1.a = 0 ∧ d1.aPowerN = 0 ∧
      d1.oldest < d1.window.length ∧ d1.h = c.val ∧ d1.logical.getLast? = some c := by
  have hb : d.window[d.oldest]? = some (d.window[d.oldest]) := List.getElem?_eq_getElem ho
  have hc : c.val < 256 := c.isLt
  refine ⟨_, Bozo32.Roll_eq d c _ hb, ha, hp, ?_, ?_, ?_⟩
  · simp only [List.length_set]
    split <;> omega
  · simp only [ha, hp, mul32, add32, sub32, W32, Nat.mul_zero, Nat.zero_mod, Nat.zero_add,
      Nat.sub_zero]
    omega
  · have hl : Bozo32.logical { d with
        window := d.window.set d.oldest c,
        oldest := if d.oldest + 1 ≥ d.window.length then 0 else d.oldest + 1,
        h := sub32 (add32 (mul32 d.h d.a) c.val) (mul32 (d.window[d.oldest]).val d.aPowerN) }
        = (d.window.drop d.oldest ++ d.window.take d.oldest).tail ++ [c] :=
      set_logical d.window d.oldest c ho
    rw [hl, List.getLast?_concat]

/-- With the base 0, after a sequence of `Roll` calls `h` is the last byte
rolled in, or what it was when nothing was rolled. -/
theorem zero_base_rollAll (r : List Byte) (d : Bozo32) (c0 : Byte) (ha : d.a = 0)
    (hp : d.aPowerN = 0) (ho : d.oldest < d.window.length) (hh : d.h = c0.val)
    (hl : d.logical.getLast? = some c0) :
    ∃ d1 x, d.rollAll r = some d1 ∧ (c0 :: r).getLast? = some x ∧ d1.h = x.val ∧
      d1.logical.getLast? = some x := by
  induction r generalizing d c0 with
  | nil => exact ⟨d, c0, rfl, rfl, hh, hl⟩
  | cons c r ih =>
    obtain ⟨d1, h1, ha1, hp1, ho1, hh1, hl1⟩ := zero_base_roll d c ha hp ho
    obtain ⟨d2, x, h2, hx, hh2, hl2⟩ := ih d1 c ha1 hp1 ho1 hh1 hl1
    refine ⟨d2, x, by simp only [Bozo32.rollAll, h1, Option.some_bind, h2], ?_, hh2, hl2⟩
    rw [List.getLast?_cons_cons]
    exact hx

/-- C19. The degenerate base 0: on every state reached from `NewFromInt(0)`
(the fresh digest included), `Write` of a non-empty input followed by any
number of `Roll` calls returns, and `Sum32` is then the value of the newest
byte of the logical window: the last byte rolled in, or the last byte written
if no `Roll` followed. -/
theorem zero_base_newest_byte (cap : Nat) (cs : List Call) (d : Bozo32)
    (data r : List Byte) (hd : (NewFromInt 0 cap).run cs = some d) (hne : data ≠ []) :
    ∃ d1 n d2 c, d.Write data = some (d1, n, none) ∧ d1.rollAll r = some d2 ∧
      (data ++ r).getLast? = some c ∧ d2.logical.getLast? = some c ∧
      d2.Sum32 = c.val := by
  have hs := reachable_shaped 0 cap cs d hd
  obtain ⟨init, c0, rfl⟩ : ∃ init c0, data = init ++ [c0] :=
    ⟨data.dropLast, data.getLast hne, (List.dropLast_append_getLast hne).symm⟩
  obtain ⟨d1, n, h1, ha1, hp1, ho1, hh1, hl1⟩ := zero_base_write d init c0 hs.1 (Shaped_le hs)
  obtain ⟨d2, x, h2, hx, hh2, hl2⟩ := zero_base_rollAll r d1 c0 ha1 hp1 ho1 hh1 hl1
  refine ⟨d1, n, d2, x, h1, h2, ?_, hl2, hh2⟩
  rw [List.append_assoc, List.singleton_append, List.getLast?_append_of_ne_nil _ (by simp)]
  exact hx

/-- C19, at the state reached by `Write([1, 2])`, `Roll(3)`, then
`Write([4, 5])` and the rolls 6 and 7. -/
theorem zero_base_newest_byte_witness :
    ∃ d, (NewFromInt 0 64).run [Call.write [1, 2], Call.roll 3] = some d ∧
      ([4, 5] : List Byte) ≠ [] ∧
      ∃ d1 n d2 c, d.Write [4, 5] = some (d1, n, none) ∧ d1.rollAll [6, 7] = some d2 ∧
        (([4, 5] : List Byte) ++ [6, 7]).getLast? = some c ∧
        d2.logical.getLast? = some c ∧ d2.Sum32 = c.val :=
  ⟨{ a := 0, h := 3, aPowerN := 0, window := [3, 2],
     spare := List.replicate 62 0, oldest := 1 },
   by decide, by decide,
   zero_base_newest_byte 64 [Call.write [1, 2], Call.roll 3] _ [4, 5] [6, 7]
     (by decide) (by decide)⟩

/-! ## Rolling Adler-32 against the standard checksum -/

/-- Starting the accumulation with `B` one higher leaves `A` as it is and `B`
one higher, modulo 65521. -/
theorem adler_fold_shift (l : List Byte) (a0 b0 : Nat) :
    l.foldl adlerStep (a0, (b0 + 1) % adlerMod)
      = ((l.foldl adlerStep (a0, b0)).1, ((l.foldl adlerStep (a0, b0)).2 + 1) % adlerMod) := by
  induction l generalizing a0 b0 with
  | nil => rfl
  | cons c l ih =>
    have hstep : adlerStep (a0, (b0 + 1) % adlerMod) c
        = ((adlerStep (a0, b0) c).1, ((adlerStep (a0, b0) c).2 + 1) % adlerMod) := by
      simp only [adlerStep, adlerMod, Prod.mk.injEq, true_and]
      omega
    rw [List.foldl_cons, List.foldl_cons, hstep, ih]

/-- The accumulation over a window that starts with a zero byte. -/
theorem adler_fold_zero_cons (l : List Byte) :
    (0 :: l).foldl adlerStep (1, 0)
      = ((l.foldl adlerStep (1, 0)).1, ((l.foldl adlerStep (1, 0)).2 + 1) % adlerMod) := by
  have h := adler_fold_shift l 1 0
  rw [List.foldl_cons]
  exact h

/-- The first `Write` of a non-empty input on a new rolling Adler-32 digest. -/
theorem Adler32_Write_New (w : List Byte) (hne : w ≠ []) :
    (Adler32.New.Write w).1
      = { A := (w.foldl adlerStep (1, 0)).1, B := (w.foldl adlerStep (1, 0)).2,
          window := w, oldest := 0 } := by
  have hl : w.length ≠ 0 := fun h0 => hne (List.length_eq_zero.mp h0)
  simp [Adler32.Write, Adler32.New, hl]

/-- The sums after `Roll(e)` when the byte that leaves is the zero byte at
index 0. -/
theorem Adler32_Roll_zero (A B : Nat) (t : List Byte) (e : Byte) :
    (Adler32.Roll { A := A, B := B, window := 0 :: t, oldest := 0 } e).A
        = (A + e.val) % adlerMod ∧
    (Adler32.Roll { A := A, B := B, window := 0 :: t, oldest := 0 } e).B
        = (B + (A + e.val) % adlerMod + (adlerMod - 1)) % adlerMod := by
  simp only [Adler32.Roll, adlerMod, List.length_cons, Nat.succ_ne_zero, if_false,
    List.getD_cons_zero, Fin.val_zero, Nat.cast_zero, mul_zero, sub_zero, Nat.add_eq_zero,
    one_ne_zero, and_false, Nat.cast_ofNat]
  constructor <;> omega

/-- The rolled digest of an input that ends in the byte `e`. -/
theorem Sum32ByWriteAndRoll_snoc (t : List Byte) (e : Byte) :
    Sum32ByWriteAndRoll (t ++ [e]) = vanillaSum32 (t ++ [e]) := by
  have hq1 : (([0] : List Byte) ++ (t ++ [e])).take (([0] ++ (t ++ [e])).length - 1) = 0 :: t := by
    have : (([0] : List Byte) ++ (t ++ [e])) = (0 :: t) ++ [e] := by simp
    rw [this]
    simp
  have hq2 : (([0] : List Byte) ++ (t ++ [e])).getD (([0] ++ (t ++ [e])).length - 1) 0 = e := by
    have : (([0] : List Byte) ++ (t ++ [e])) = (0 :: t) ++ [e] := by simp
    rw [this]
    simp [List.getD_eq_getElem?_getD]
  obtain ⟨hA, hB⟩ := Adler32_Roll_zero ((0 :: t).foldl adlerStep (1, 0)).1
    ((0 :: t).foldl adlerStep (1, 0)).2 t e
  unfold Sum32ByWriteAndRoll vanillaSum32
  simp only [hq1, hq2, Adler32_Write_New (0 :: t) (List.cons_ne_nil 0 t), Adler32.Sum32, hA, hB]
  rw [adler_fold_zero_cons, List.foldl_append, List.foldl_cons, List.foldl_nil]
  simp only [adlerStep, adlerMod]
  omega

/-- C14. Rolling Adler-32 agrees with the standard Adler-32: for every byte
sequence `b`, the rolling digest seeded by `Write` of all but the last byte of
`0x00 ++ b` and advanced by one `Roll` of the last byte has `Sum32` equal to
the standard checksum of `b`; it is `0x00000001` for the empty input,
`0x00620062` for "a" and `0x024d0127` for "abc". -/
theorem rolling_adler_matches_standard (b : List Byte) :
    Sum32ByWriteAndRoll b = vanillaSum32 b ∧
      Sum32ByWriteAndRoll [] = 0x00000001 ∧
      Sum32ByWriteAndRoll [0x61] = 0x00620062 ∧
      Sum32ByWriteAndRoll [0x61, 0x62, 0x63] = 0x024d0127 := by
  refine ⟨?_, by decide, by decide, by decide⟩
  by_cases hb : b = []
  · subst hb
    decide
  · rw [← List.dropLast_append_getLast hb]
    exact Sum32ByWriteAndRoll_snoc _ _

end Rollinghash
